import Mathlib

/-!
Verification of the k-mer vector engine of DiverseSeq (`src/divergent/record.py`)
against its natural-language specification.

The Python source is shallowly embedded below:
* the counting/codec kernels are `numba`-jitted: their integer arithmetic is
  fixed-width and wraps silently.  Signed 64-bit computation chains are
  modelled by `i64` (the exact integer value wrapped into `[-2^63, 2^63)`),
  the `uint64` cast by `u64`; sequence positions, loop counters and the
  exact reference quantities stay in `ℕ`;
* numeric cell values of the `vector` container are modelled as `ℚ` (the exact
  values of Python ints and floats); the one transcendental operation, `log2`,
  is modelled as `Real.logb 2`;
* fallible operations (scalar indexing of a numpy array out of bounds,
  allocation of a negative-size array, attribute lookup that can raise
  `AttributeError`, `attrs` validators) return `Option`/`Except`.
-/

namespace Divergent

/-! ## K-mer coordinate codec (`record.py` lines 194-215)

The codec and counting kernels are `@numba.jit(nopython=True)`-compiled:
their integer arithmetic is fixed-width.  `num_states`, `k`, the
coefficients and the window encodings are signed 64-bit (`int64`) and wrap
silently (`2 ** 63` is negative, `4 ** 32` is `0`); the `coord` array of
`index_to_coord` is `uint64`.  Every int64 operation chain is congruent to
its exact integer value modulo `2 ^ 64`, and the final register holds the
unique representative in `[-2^63, 2^63)`, so a whole chain is modelled by
applying `i64` to its exact value; `u64` is the `uint64` cast.  The exact
(unbounded-integer) images of the codec are kept alongside as
`coeffsExact`, `encodeExact` and `decodeExact`: the theorems below show the
source functions agree with them exactly while `num_states ^ k` stays in
the int64-exact range, and diverge from the specified behaviour outside
it. -/

/-- The value held by an `int64` register after a computation whose exact
value is `x`: the unique representative of `x` modulo `2 ^ 64` in
`[-2^63, 2^63)`. -/
def i64 (x : ℤ) : ℤ := (x + 2 ^ 63) % 2 ^ 64 - 2 ^ 63

/-- The `uint64` cast: the representative of `x` modulo `2 ^ 64` in
`[0, 2^64)`. -/
def u64 (x : ℤ) : ℤ := x % 2 ^ 64

/-- `coord_conversion_coeffs(num_states, k)` is
`array([num_states ** (i - 1) for i in range(k, 0, -1)])`: the int64 powers
`num_states ^ (k-1), ..., num_states ^ 0`, most significant position first,
each wrapped. -/
def coord_conversion_coeffs (num_states k : ℕ) : List ℤ :=
  ((List.range k).reverse).map (fun i => i64 ((num_states : ℤ) ^ i))

/-- `coord_to_index(coord, coeffs)` = `(coord * coeffs).sum()`: elementwise
int64 products, then an int64 reduction.  Each intermediate wrap preserves
congruence modulo `2 ^ 64`, so the final int64 value is the single wrap of
the exact product-sum over the (already wrapped) operands. -/
def coord_to_index (coord coeffs : List ℤ) : ℤ :=
  i64 ((List.zipWith (fun a b => a * b) coord coeffs).sum)

/-- `index_to_coord(index, coeffs)`: the source loops over the coefficient
positions threading `remainder`, writing `coord[i], remainder =
np_divmod(remainder, coeffs[i])`.  The loop is unrolled into structural
recursion on the coefficient list, the `remainder` state becoming the
argument of the recursive call.  `np_divmod` is floor division and floor
remainder (`Int.fdiv` / `Int.fmod`); storing the quotient into the `uint64`
`coord` array is the `u64` cast. -/
def index_to_coord (index : ℤ) (coeffs : List ℤ) : List ℤ :=
  match coeffs with
  | [] => []
  | c :: rest => u64 (Int.fdiv index c) :: index_to_coord (Int.fmod index c) rest

/-- The exact (unbounded) coefficients
`num_states ^ (k-1), ..., num_states ^ 0`: the image of
`coord_conversion_coeffs` when no power wraps. -/
def coeffsExact (num_states k : ℕ) : List ℕ :=
  ((List.range k).reverse).map (fun i => num_states ^ i)

/-- The exact product-sum `(coord * coeffs).sum()`: the image of
`coord_to_index` when nothing wraps. -/
def encodeExact (coord coeffs : List ℕ) : ℕ :=
  (List.zipWith (fun a b => a * b) coord coeffs).sum

/-- The exact mixed-radix divmod chain: the image of `index_to_coord` on a
nonnegative index and positive exact coefficients (`np_divmod` on such
operands is `Nat.div`/`Nat.mod`). -/
def decodeExact (index : ℕ) (coeffs : List ℕ) : List ℕ :=
  match coeffs with
  | [] => []
  | c :: rest => index / c :: decodeExact (index % c) rest

/-! ## Counting engine (`record.py` lines 273-354 and 492-501)

Both kernels share the same shape: an initialisation scan
`for i in range(k): if seq[i] >= num_states: skip_until = i + 1`,
then a slide over the window start positions that refreshes `skip_until` from
the trailing edge `seq[i + k - 1]` and emits the encoded window when
`i >= skip_until`.

Scalar indexing of a numpy array out of bounds is a failure (an `IndexError`
under plain numpy; an out-of-bounds memory read under the `numba` jit, which
never returns the specified value), so every scalar read `seq[i]` is modelled
as the checked lookup `seq[i]?`.  Python slicing `seq[i : i + k]` clamps at the
array end and cannot fail, so the window slice is the total
`(seq.drop i).take k`. -/

/-- The initialisation scan over `range(m)` (the kernels call it with
`m = k`), every read checked. -/
def initSkipChecked (seq : List ℕ) (num_states : ℕ) : ℕ → Option ℕ
  | 0 => some 0
  | m + 1 => do
      let su ← initSkipChecked seq num_states m
      let v ← seq[m]?
      pure (if num_states ≤ v then m + 1 else su)

/-- A single increment of the dense counts array, modelled as a function
update (the kernels only ever increment at an encoded valid window, which is
proved below to lie inside the array bounds `num_states ^ k`). -/
def bump (f : ℕ → ℕ) (e : ℕ) : ℕ → ℕ :=
  fun x => if x = e then f x + 1 else f x

/-- State of `kmer_counts` after the initialisation scan and `m` iterations of
`for i in range(len(seq) - k + 1)`: the pair `(skip_until, kfreqs)`.
`kfreqs[index] += 1` indexes with the int64 window encoding: numba resolves
a negative index Python-style (adding the array length `size`) and performs
no bounds check, so an index outside `[-size, size)` is an out-of-bounds
write, modelled as failure.  The `uint64` count cells cannot wrap: a count
is bounded by the number of windows. -/
def kmerCountsLoop (seq : List ℕ) (num_states k : ℕ) (size : ℤ) :
    ℕ → Option (ℕ × (ℕ → ℕ))
  | 0 => (initSkipChecked seq num_states k).map (fun su => (su, fun _ => 0))
  | m + 1 => do
      let st ← kmerCountsLoop seq num_states k size m
      let v ← seq[m + k - 1]?
      let su := if num_states ≤ v then m + k else st.1
      if m < su then pure (su, st.2)
      else
        let index := coord_to_index (((seq.drop m).take k).map (fun x : ℕ => (x : ℤ)))
          (coord_conversion_coeffs num_states k)
        if -size ≤ index ∧ index < size then
          pure (su, bump st.2 (index % size).toNat)
        else none

/-- `kmer_counts(seq, num_states, k)`: allocates
`kfreqs = zeros(num_states ** k, dtype=uint64)` — the size is computed in
int64 and wraps (`4 ** 32` is `0`); a negative size raises `ValueError` —
and returns the dense counts array as its cell-to-count function.  The
Python loop bound `len(seq) - k + 1` is at most zero (empty loop) when
`len(seq) < k`, hence the truncated `seq.length + 1 - k`. -/
def kmer_counts (seq : List ℕ) (num_states k : ℕ) : Option (ℕ → ℕ) :=
  if i64 ((num_states : ℤ) ^ k) < 0 then none
  else (kmerCountsLoop seq num_states k (i64 ((num_states : ℤ) ^ k))
    (seq.length + 1 - k)).map Prod.snd

/-- State of `kmer_indices` after the initialisation scan and `m` iterations of
`for i in range(len(result))`: the pair `(skip_until, written prefix of
result)`.  `result[result_idx] = index; result_idx += 1` appends the int64
window encoding; `result_idx` never exceeds the number of emitted windows,
which is at most `len(result)`, so the write is in bounds.  The caller
allocates `result` with the dtype the external `get_array_type` derives
from the Python-exact `num_states ** k` (its contract: the dtype indexes
that many values), so storing a canonical encoding is lossless and the
stored cell is modelled as the int64 value itself. -/
def kmerIndicesLoop (seq : List ℕ) (num_states k : ℕ) : ℕ → Option (ℕ × List ℤ)
  | 0 => (initSkipChecked seq num_states k).map (fun su => (su, []))
  | m + 1 => do
      let st ← kmerIndicesLoop seq num_states k m
      let v ← seq[m + k - 1]?
      let su := if num_states ≤ v then m + k else st.1
      if m < su then pure (su, st.2)
      else pure (su, st.2 ++
        [coord_to_index (((seq.drop m).take k).map (fun x : ℕ => (x : ℤ)))
          (coord_conversion_coeffs num_states k)])

/-- `kmer_indices(seq, result, num_states, k)`: returns `result[:result_idx]`,
the written prefix; `result_len` is the length of the caller-allocated
`result` array, which drives the loop bound. -/
def kmer_indices (seq : List ℕ) (result_len num_states k : ℕ) : Option (List ℤ) :=
  (kmerIndicesLoop seq num_states k result_len).map Prod.snd

/-- `_seq_to_all_kmers(seq, states, k)` allocates
`result = zeros(len(seq) - k + 1)` — a `ValueError` when the size is negative,
i.e. when `len(seq) + 1 < k` — and returns `kmer_indices(seq, result,
num_states, k)`.  Only `len(states)` is used, passed here as `num_states`. -/
def _seq_to_all_kmers (seq : List ℕ) (num_states k : ℕ) : Option (List ℤ) :=
  if seq.length + 1 < k then none
  else kmer_indices seq (seq.length + 1 - k) num_states k

/-! ### The naive re-scan reference (from the specification's words, for the
refinement claim C2): a window starting at `i` is counted iff all of its `k`
positions are canonical, and its value is the mixed-radix encoding with
weights `num_states ^ (k - 1 - j)`. -/

def windowValid (seq : List ℕ) (num_states k i : ℕ) : Prop :=
  ∀ j < k, seq.getD (i + j) 0 < num_states

instance (seq : List ℕ) (num_states k i : ℕ) :
    Decidable (windowValid seq num_states k i) :=
  Nat.decidableBallLT k _

def naiveEncode (seq : List ℕ) (num_states k i : ℕ) : ℕ :=
  ((List.range k).map (fun j => seq.getD (i + j) 0 * num_states ^ (k - 1 - j))).sum

def naiveCount (seq : List ℕ) (num_states k e : ℕ) : ℕ :=
  ((List.range (seq.length + 1 - k)).filter
    (fun i => decide (windowValid seq num_states k i) &&
      (naiveEncode seq num_states k i == e))).length

/-! ### Total (unchecked) images of the loops, used to reason about the
kernels once all reads are known to be in bounds. -/

/-- Total version of the initialisation scan: the value of `skip_until` after
scanning positions `0 .. m - 1`. -/
def badBound (seq : List ℕ) (num_states : ℕ) : ℕ → ℕ
  | 0 => 0
  | m + 1 => if num_states ≤ seq.getD m 0 then m + 1 else badBound seq num_states m

def kmerCountsLoopT (seq : List ℕ) (num_states k : ℕ) : ℕ → ℕ × (ℕ → ℕ)
  | 0 => (badBound seq num_states k, fun _ => 0)
  | m + 1 =>
      let st := kmerCountsLoopT seq num_states k m
      let su := if num_states ≤ seq.getD (m + k - 1) 0 then m + k else st.1
      if m < su then (su, st.2)
      else (su, bump st.2
        (encodeExact ((seq.drop m).take k) (coeffsExact num_states k)))

def kmerIndicesLoopT (seq : List ℕ) (num_states k : ℕ) : ℕ → ℕ × List ℕ
  | 0 => (badBound seq num_states k, [])
  | m + 1 =>
      let st := kmerIndicesLoopT seq num_states k m
      let su := if num_states ≤ seq.getD (m + k - 1) 0 then m + k else st.1
      if m < su then (su, st.2)
      else (su, st.2 ++
        [encodeExact ((seq.drop m).take k) (coeffsExact num_states k)])

/-! ### The skip-until invariant: after the update at step `m`, `skip_until`
is one past the last non-canonical position among `0 .. m + k - 1` (zero when
there is none), i.e. `badBound (k + m)`. -/

/-- The common image of the two loops: the encodings of the valid windows
among starts `0 .. m - 1`, in ascending start order. -/
def validEncodings (seq : List ℕ) (ns k m : ℕ) : List ℕ :=
  ((List.range m).filter (fun i => decide (windowValid seq ns k i))).map
    (fun i => encodeExact ((seq.drop i).take k) (coeffsExact ns k))

/-! ### Window encodings: the inline `(seq[i : i + k] * coeffs).sum()` agrees
with the naive mixed-radix formula, and is bounded by `num_states ^ k`. -/

/-! ### The two counting modes, characterised. -/

/-! ## The `vector` container (`record.py` lines 70-191)

Cell values are the exact rationals denoted by the Python ints / floats in
play.  `data` may be supplied to the constructor as a numpy `ndarray` or as a
Python `dict` of `{index: value}`; `_make_data` turns either into a dense
`ndarray`, so a constructed `vector`'s own `data` slot is always an
`ndarray`. -/

/-- The cell type of a `vector` (the result of `_gettype`); the claims below
only involve the Python types `int` and `float`. -/
inductive Dtype
  | int
  | float
deriving DecidableEq

/-- A Python value that can sit in a `data` slot: a numpy `ndarray` (dense)
or a `dict` of `{index: value}` pairs. -/
inductive PyData
  | arr (xs : List ℚ)
  | dict (kvs : List (ℕ × ℚ))

/-- Python attribute access `x.items()`: defined for `dict` values; on an
`ndarray` it raises `AttributeError` (modelled as `none`). -/
def PyData.items : PyData → Option (List (ℕ × ℚ))
  | .dict kvs => some kvs
  | .arr _ => none

/-- The `dict` branch of `_make_data`: `result = zeros(size)`, then
`result[i] = n` for every entry not close to zero (`math.isclose(n, 0)` with
the default `abs_tol = 0` holds exactly when `n == 0`). -/
def _make_data_dict (kvs : List (ℕ × ℚ)) (size : ℕ) : List ℚ :=
  kvs.foldl (fun result kv =>
    if kv.2 = 0 then result else result.set kv.1 kv.2)
    (List.replicate size 0)

/-- The `vector` container.  The derived slot `default` (`dtype(0)`,
`init=False`, popped before serialisation) carries no information and is
omitted. -/
structure vector where
  data : List ℚ
  vector_length : ℕ
  dtype : Dtype
  source : Option String
  name : Option String
deriving DecidableEq

/-- `sum()`: full reduction of `data`. -/
def vector.sum (v : vector) : ℚ := v.data.sum

/-! ### Division (`__truediv__` / `__itruediv__`, lines 149-160) -/

/-- The largest finite float64 value, `2^1024 - 2^971`: numpy's default
replacement for `+inf` in `nan_to_num` (`posinf` defaults to the dtype
maximum, `neginf` to its negation). -/
def MAX_FLOAT : ℚ := 2 ^ 1024 - 2 ^ 971

/-- The IEEE-754 result of a float division of finite operands. -/
inductive FloatResult
  | num (q : ℚ)
  | posInf
  | negInf
  | nan

/-- A single cell of numpy float division on finite operands: `0 / 0` is NaN,
`x / 0` for nonzero `x` a signed infinity, otherwise the exact quotient (the
claims below do not involve rounding). -/
def float_div (a b : ℚ) : FloatResult :=
  if b = 0 then (if a = 0 then .nan else if 0 < a then .posInf else .negInf)
  else .num (a / b)

/-- `numpy.nan_to_num(x, nan=0.0)` on one cell: NaN becomes `0.0`; the
infinities keep their defaults, the largest / most negative finite float. -/
def nan_to_num (x : FloatResult) : ℚ :=
  match x with
  | .num q => q
  | .nan => 0
  | .posInf => MAX_FLOAT
  | .negInf => -MAX_FLOAT

/-- The divisor of `__truediv__`/`__itruediv__`: another `vector` (numpy
coerces it elementwise through its sequence interface) or a scalar. -/
inductive Divisor
  | vec (w : vector)
  | scalar (c : ℚ)

/-- `nan_to_num(self.data / other, nan=0.0)`, elementwise. -/
def div_data (xs : List ℚ) : Divisor → List ℚ
  | .scalar c => xs.map (fun a => nan_to_num (float_div a c))
  | .vec w => List.zipWith (fun a b => nan_to_num (float_div a b)) xs w.data

/-- `__truediv__`: a new instance via
`self.__class__(data=data, vector_length=self.vector_length, dtype=float)`
(`source`/`name` take their default `None`; `_make_data` passes the computed
array through unchanged). -/
def vector.truediv (v : vector) (other : Divisor) : vector :=
  { data := div_data v.data other
    vector_length := v.vector_length
    dtype := Dtype.float
    source := none
    name := none }

/-- `__itruediv__`: recomputes `data`, sets `self.dtype = float`, returns
`self`. -/
def vector.itruediv (v : vector) (other : Divisor) : vector :=
  { v with data := div_data v.data other, dtype := Dtype.float }

/-! ### Serialisation (`to_rich_dict` / `from_dict`, lines 179-191) -/

/-- The plain structure that `to_rich_dict` is meant to produce:
`{vector_length, dtype name, source, name, data: list of (index, value)}`. -/
structure RichDict where
  data : List (ℕ × ℚ)
  vector_length : ℕ
  dtype : Dtype
  source : Option String
  name : Option String

/-- `to_rich_dict`: `asdict(self)` places the `ndarray` under `"data"`; the
method then evaluates `data["data"].items()`.  `items` is a `dict` method —
an `ndarray` has no attribute `items`, so the call raises `AttributeError`
(the `Option` failure). -/
def vector.to_rich_dict (v : vector) : Option RichDict :=
  (PyData.arr v.data).items.map (fun pairs =>
    { data := pairs
      vector_length := v.vector_length
      dtype := v.dtype
      source := v.source
      name := v.name })

/-- `from_dict`: rebuilds the `dict` from the pair list and calls the
constructor, whose `_make_data` densifies it. -/
def vector.from_dict (d : RichDict) : vector :=
  { data := _make_data_dict d.data d.vector_length
    vector_length := d.vector_length
    dtype := d.dtype
    source := d.source
    name := d.name }

/-! ### Entropy (`entropy` property, lines 168-177)

`non_zero = self.data[self.data > 0]`; for `float` dtype the values are used
as they stand (the code assumes an already-normalised frequency vector),
otherwise they are normalised by their own sum; the result is
`fabs(-(kfreqs * log2(kfreqs)).sum())`.  `log2` is `Real.logb 2`. -/

noncomputable def vector.entropy (v : vector) : ℝ :=
  |(-(((if v.dtype = Dtype.float then v.data.filter (fun x => decide (0 < x))
      else (v.data.filter (fun x => decide (0 < x))).map
        (fun x => x / (v.data.filter (fun x => decide (0 < x))).sum)).map
      (fun p : ℚ => (p : ℝ) * Real.logb 2 (p : ℝ))).sum))|

/-- The claim's entropy formula, from the specification's words: minus the
sum, over the non-zero cells `p`, of `(p / S) * log2 (p / S)` with
`S = v.sum()`. -/
noncomputable def claimedEntropy (v : vector) : ℝ :=
  -(((v.data.filter (fun x => decide (x ≠ 0))).map
      (fun p : ℚ => ((p / v.sum : ℚ) : ℝ) * Real.logb 2 ((p / v.sum : ℚ) : ℝ))).sum)

/-- The summand list of the claimed formula specialised to the positive cells
and their own sum — what the integer-dtype branch of `entropy` actually
computes. -/
noncomputable def intEntropyTerms (v : vector) : List ℝ :=
  (v.data.filter (fun x => decide (0 < x))).map
    (fun p : ℚ => ((p / (v.data.filter (fun x => decide (0 < x))).sum : ℚ) : ℝ)
      * Real.logb 2 ((p / (v.data.filter (fun x => decide (0 < x))).sum : ℚ) : ℝ))

/-! ## `SeqRecord` (`record.py` lines 357-433)

`@define(slots=True, order=True, hash=True)` with fields, in definition
order: `kcounts` (`eq=False`, converter `_make_kcounts`), `name`
(`eq=True`, `instance_of(str)`), `length` (`eq=True`, `instance_of(int)` and
`_gt_zero`), `delta_jsd` (`init=False`, `default=0.0`, `eq=False`).  In
`attrs`, a field's `order` flag mirrors its `eq` flag when not given
explicitly, so the generated comparison methods use the tuple
`(name, length)`; `kcounts` and `delta_jsd` take part in neither equality
nor ordering. -/

structure SeqRecord where
  kcounts : vector
  name : String
  length : ℤ
  delta_jsd : ℚ
deriving DecidableEq

/-- `_gt_zero(instance, attribute, value)` validator:
`ValueError(f"must be > 0, not {value}")` unless the value is positive. -/
def _gt_zero (value : ℤ) : Except String Unit :=
  if value ≤ 0 then Except.error ("must be > 0, not " ++ toString value)
  else Except.ok ()

/-- Construction of a `SeqRecord` from `(kcounts, name, length)`: the
`_make_kcounts` converter returns a `vector` argument unchanged, `name` and
`length` pass their `instance_of` checks (statically guaranteed in this
embedding), `length` runs `_gt_zero`, and `delta_jsd` is initialised to
`0.0`.  No other validation exists — in particular nothing compares
`kcounts.vector_length` (the implied `num_states ^ k`) with `length`. -/
def SeqRecord.make (kcounts : vector) (name : String) (length : ℤ) :
    Except String SeqRecord := do
  _ ← _gt_zero length
  pure { kcounts := kcounts, name := name, length := length, delta_jsd := 0 }

/-- The `attrs`-generated `__lt__` of `SeqRecord`: lexicographic comparison
of the `(name, length)` tuples of the two records (the fields whose `order`
flag is true; Python compares strings by code points, as `String` ordering
does here). -/
def SeqRecord.lt (a b : SeqRecord) : Prop :=
  a.name < b.name ∨ (a.name = b.name ∧ a.length < b.length)

/-- A record like those of `test_seqrecord_compare`: name `"null"`, length
`5`, a concrete counts vector, and the given `delta_jsd`. -/
def recNull (d : ℚ) : SeqRecord :=
  { kcounts := vector.mk [1] 1 Dtype.int none none
    name := "null"
    length := 5
    delta_jsd := d }

/-- A counts vector of `vector_length` 16 = 4 ^ 2, i.e. implied `k = 2` for
the DNA alphabet. -/
def kc16 : vector := vector.mk (List.replicate 16 0) 16 Dtype.int none none

/-! ## Theorems

Proof outline for the counting engine: the checked loops agree with their
total (`getD`) images while every read is in bounds; after the update at
step `m` the `skip_until` cursor equals `badBound (k + m)`, one past the
last non-canonical position among `0 .. m + k - 1`; a window therefore
survives the cursor exactly when it is valid, so both loops produce the
encodings of the valid windows (`validEncodings`), from which the claims
about `kmer_counts`, `kmer_indices` and the naive reference follow. -/

theorem coeffsExact_zero (num_states : ℕ) :
    coeffsExact num_states 0 = [] := rfl

theorem coeffsExact_succ (num_states k : ℕ) :
    coeffsExact num_states (k + 1) =
      num_states ^ k :: coeffsExact num_states k := by
  simp [coeffsExact, List.range_succ]

/-- Exact-model round trip: decoding a valid index yields `k` digits, each
below `num_states`, and re-encoding them recovers the index.  The codec
claim theorem reaches this through the int64 bridges below. -/
theorem decodeExact_spec (num_states : ℕ) (h1 : 1 ≤ num_states) :
    ∀ (k index : ℕ), index < num_states ^ k →
      (decodeExact index (coeffsExact num_states k)).length = k ∧
      (∀ d ∈ decodeExact index (coeffsExact num_states k),
        d < num_states) ∧
      encodeExact (decodeExact index (coeffsExact num_states k))
        (coeffsExact num_states k) = index := by
  intro k
  induction k with
  | zero =>
      intro index hidx
      simp [coeffsExact_zero, decodeExact, encodeExact] at *
      omega
  | succ k ih =>
      intro index hidx
      have hpow : 0 < num_states ^ k := Nat.pos_pow_of_pos k h1
      have hdigit : index / num_states ^ k < num_states := by
        have : index < num_states ^ k * num_states := by
          calc index < num_states ^ (k + 1) := hidx
          _ = num_states ^ k * num_states := by ring
        exact Nat.div_lt_of_lt_mul this
      have hrem : index % num_states ^ k < num_states ^ k := Nat.mod_lt _ hpow
      obtain ⟨hlen, hdig, henc⟩ := ih (index % num_states ^ k) hrem
      rw [coeffsExact_succ]
      refine ⟨by simp [decodeExact, hlen], ?_, ?_⟩
      · intro d hd
        simp only [decodeExact, List.mem_cons] at hd
        rcases hd with rfl | hd
        · exact hdigit
        · exact hdig d hd
      · simp only [decodeExact, encodeExact, List.zipWith_cons_cons,
          List.sum_cons]
        have := Nat.div_add_mod index (num_states ^ k)
        calc index / num_states ^ k * num_states ^ k +
              (List.zipWith (fun a b => a * b)
                (decodeExact (index % num_states ^ k)
                  (coeffsExact num_states k))
                (coeffsExact num_states k)).sum
            = index / num_states ^ k * num_states ^ k +
                index % num_states ^ k := by rw [encodeExact] at henc; rw [henc]
          _ = num_states ^ k * (index / num_states ^ k) +
                index % num_states ^ k := by ring
          _ = index := Nat.div_add_mod index (num_states ^ k)

/-- C4: for every `num_states ≥ 1` and `k ≥ 1` with `num_states ^ k` in the
representable (64-bit) index range, and every `index < num_states ^ k`,
`decodeExact` (with the `coeffsExact` coefficients) produces a
length-`k` digit array with every digit `< num_states`, and `encodeExact`
maps that array back to the original index:  encode (decode index) = index. -/
theorem i64_eq_of_lt {x : ℤ} (h0 : 0 ≤ x) (h1 : x < 2 ^ 63) : i64 x = x := by
  have h2 : (2 : ℤ) ^ 63 + 2 ^ 63 = 2 ^ 64 := by norm_num
  rw [i64, Int.emod_eq_of_lt (by omega) (by omega)]
  omega

theorem u64_eq_of_lt {x : ℤ} (h0 : 0 ≤ x) (h1 : x < 2 ^ 64) : u64 x = x := by
  rw [u64, Int.emod_eq_of_lt h0 h1]

/-- Every coefficient power stays strictly below `2 ^ 63` while
`num_states ^ k` is at most `2 ^ 63`. -/
theorem pow_lt_int64_exact (ns k i : ℕ) (h1 : 1 ≤ ns) (hik : i < k)
    (hcap : ns ^ k ≤ 2 ^ 63) : ns ^ i < 2 ^ 63 := by
  have h63 : (2 : ℕ) ^ 63 = 9223372036854775808 := by norm_num
  rcases Nat.lt_or_ge ns 2 with h2 | h2
  · have hns1 : ns = 1 := by omega
    subst hns1
    simp only [one_pow]
    omega
  · have hle : ns ^ (i + 1) ≤ ns ^ k := Nat.pow_le_pow_right (by omega) (by omega)
    have hmul : ns ^ (i + 1) = ns ^ i * ns := by ring
    have hmono : ns ^ i * 2 ≤ ns ^ i * ns := Nat.mul_le_mul_left _ h2
    omega

theorem coeffsExact_pos (ns k : ℕ) (h1 : 1 ≤ ns) :
    ∀ c ∈ coeffsExact ns k, 0 < c := by
  intro c hc
  rw [coeffsExact] at hc
  simp only [List.mem_map] at hc
  obtain ⟨i, _, rfl⟩ := hc
  exact Nat.pos_pow_of_pos i h1

/-- In the int64-exact range no coefficient power wraps, so the jitted
coefficients are the casts of the exact ones. -/
theorem coord_conversion_coeffs_eq_exact (ns k : ℕ) (h1 : 1 ≤ ns)
    (hcap : ns ^ k ≤ 2 ^ 63) :
    coord_conversion_coeffs ns k = (coeffsExact ns k).map (fun c : ℕ => (c : ℤ)) := by
  rw [coord_conversion_coeffs, coeffsExact, List.map_map]
  apply List.map_congr_left
  intro i hi
  have hik : i < k := by
    rw [List.mem_reverse, List.mem_range] at hi
    exact hi
  have hpow := pow_lt_int64_exact ns k i h1 hik hcap
  show i64 ((ns : ℤ) ^ i) = ((ns ^ i : ℕ) : ℤ)
  have hcast : ((ns : ℤ)) ^ i = ((ns ^ i : ℕ) : ℤ) := by push_cast; ring
  rw [hcast]
  apply i64_eq_of_lt (by positivity)
  have h2 : ((2 : ℤ)) ^ 63 = ((2 ^ 63 : ℕ) : ℤ) := by norm_num
  rw [h2]
  exact_mod_cast hpow

theorem zipWith_mul_cast : ∀ w ce : List ℕ,
    List.zipWith (fun a b => a * b) (w.map (fun x : ℕ => (x : ℤ)))
        (ce.map (fun c : ℕ => (c : ℤ)))
      = (List.zipWith (fun a b => a * b) w ce).map (fun x : ℕ => (x : ℤ)) := by
  intro w
  induction w with
  | nil => intro ce; simp
  | cons a w ih =>
      intro ce
      cases ce with
      | nil => simp
      | cons c ce => simp [ih ce]

theorem cast_list_sum : ∀ l : List ℕ,
    ((l.sum : ℕ) : ℤ) = (l.map (fun x : ℕ => (x : ℤ))).sum := by
  intro l
  induction l with
  | nil => simp
  | cons a t ih => simp [ih]

/-- In the int64-exact range the jitted product-sum is the cast of the exact
encoding. -/
theorem coord_to_index_cast (w ce : List ℕ) (hsum : encodeExact w ce < 2 ^ 63) :
    coord_to_index (w.map (fun x : ℕ => (x : ℤ))) (ce.map (fun c : ℕ => (c : ℤ)))
      = ((encodeExact w ce : ℕ) : ℤ) := by
  rw [coord_to_index, zipWith_mul_cast, ← cast_list_sum]
  rw [encodeExact] at hsum
  apply i64_eq_of_lt (by positivity)
  have h2 : ((2 : ℤ)) ^ 63 = ((2 ^ 63 : ℕ) : ℤ) := by norm_num
  rw [h2]
  exact_mod_cast hsum

/-- On a nonnegative int64-exact index and exact positive coefficients the
jitted divmod chain is the cast of the exact one. -/
theorem index_to_coord_cast : ∀ (ce : List ℕ) (idxN : ℕ), (∀ c ∈ ce, 0 < c) →
    idxN < 2 ^ 63 →
    index_to_coord (idxN : ℤ) (ce.map (fun c : ℕ => (c : ℤ)))
      = (decodeExact idxN ce).map (fun d : ℕ => (d : ℤ)) := by
  intro ce
  induction ce with
  | nil => intro idxN _ _; rfl
  | cons c rest ih =>
      intro idxN hpos hidx
      have hdiv : Int.fdiv (idxN : ℤ) (c : ℤ) = ((idxN / c : ℕ) : ℤ) := by
        rw [Int.fdiv_eq_ediv _ (Int.natCast_nonneg c)]
        exact_mod_cast rfl
      have hmod : Int.fmod (idxN : ℤ) (c : ℤ) = ((idxN % c : ℕ) : ℤ) := by
        rw [Int.fmod_eq_emod _ (Int.natCast_nonneg c)]
        exact_mod_cast rfl
      rw [List.map_cons, index_to_coord, hdiv, hmod, decodeExact, List.map_cons]
      congr 1
      · apply u64_eq_of_lt (by positivity)
        have h1 : idxN / c ≤ idxN := Nat.div_le_self _ _
        have h2 : ((2 : ℤ)) ^ 64 = ((2 ^ 64 : ℕ) : ℤ) := by norm_num
        have h3 : (2 : ℕ) ^ 63 ≤ 2 ^ 64 := by norm_num
        rw [h2]
        have : idxN / c < 2 ^ 64 := by omega
        exact_mod_cast this
      · apply ih
        · intro x hx
          exact hpos x (List.mem_cons_of_mem c hx)
        · have := Nat.mod_le idxN c
          omega

/-- C4 counterexample: the claimed capacity range (64-bit unsigned,
`num_states ^ k ≤ 2 ^ 64`) includes inputs on which the jitted int64 codec
wraps.  At `num_states = 2`, `k = 64` the top coefficient `2 ** 63` wraps to
`-2 ^ 63`, so decoding the in-range index `5` floor-divides by a negative
coefficient: the quotient `-1` is stored in the `uint64` coord array as
`2 ^ 64 - 1`, which is not a digit below `num_states`, refuting the claimed
round trip on its stated domain. -/
theorem c4_int64_wrap_counterexample :
    (5 : ℕ) < 2 ^ 64 ∧ (2 : ℕ) ^ 64 ≤ 2 ^ 64 ∧
    (index_to_coord ((5 : ℕ) : ℤ) (coord_conversion_coeffs 2 64)).getD 0 0
      = 2 ^ 64 - 1 ∧
    ¬ ((2 ^ 64 - 1 : ℤ) < ((2 : ℕ) : ℤ)) := by
  refine ⟨by norm_num, le_refl _, ?_, by norm_num⟩
  decide

/-- C4 amended: within the int64-exact capacity range
`num_states ^ k ≤ 2 ^ 63` — rather than the claimed full 64-bit-unsigned
range, where the jitted coefficients wrap (see the counterexample) — the
codec is exact: decoding an index below `num_states ^ k` yields a length-`k`
array of digits, each in `[0, num_states)`, and re-encoding that array
returns the original index. -/
theorem c4_codec_round_trip_int64 (num_states k index : ℕ)
    (h1 : 1 ≤ num_states) (_hk : 1 ≤ k)
    (hidx : index < num_states ^ k) (hcap : num_states ^ k ≤ 2 ^ 63) :
    (index_to_coord (index : ℤ) (coord_conversion_coeffs num_states k)).length = k ∧
    (∀ d ∈ index_to_coord (index : ℤ) (coord_conversion_coeffs num_states k),
      0 ≤ d ∧ d < (num_states : ℤ)) ∧
    coord_to_index (index_to_coord (index : ℤ) (coord_conversion_coeffs num_states k))
      (coord_conversion_coeffs num_states k) = (index : ℤ) := by
  have hidx63 : index < 2 ^ 63 := lt_of_lt_of_le hidx hcap
  have hco := coord_conversion_coeffs_eq_exact num_states k h1 hcap
  have hdec := index_to_coord_cast (coeffsExact num_states k) index
    (coeffsExact_pos num_states k h1) hidx63
  obtain ⟨hlen, hdig, henc⟩ := decodeExact_spec num_states h1 k index hidx
  rw [hco, hdec]
  refine ⟨by simp [hlen], ?_, ?_⟩
  · intro d hd
    simp only [List.mem_map] at hd
    obtain ⟨d0, hd0, rfl⟩ := hd
    exact ⟨by positivity, by exact_mod_cast hdig d0 hd0⟩
  · rw [coord_to_index_cast _ _ (by rw [henc]; exact hidx63)]
    exact_mod_cast henc

/-- Witness for C4 (amended): `num_states = 4`, `k = 2`, `index = 11`
decodes to `[2, 3]` and re-encodes to `11`. -/
theorem c4_codec_round_trip_int64_witness :
    (1 ≤ 4 ∧ 1 ≤ 2 ∧ 11 < 4 ^ 2 ∧ 4 ^ 2 ≤ 2 ^ 63) ∧
    ((index_to_coord ((11 : ℕ) : ℤ) (coord_conversion_coeffs 4 2)).length = 2 ∧
      (∀ d ∈ index_to_coord ((11 : ℕ) : ℤ) (coord_conversion_coeffs 4 2),
        0 ≤ d ∧ d < ((4 : ℕ) : ℤ)) ∧
      coord_to_index (index_to_coord ((11 : ℕ) : ℤ) (coord_conversion_coeffs 4 2))
        (coord_conversion_coeffs 4 2) = ((11 : ℕ) : ℤ)) :=
  ⟨⟨by norm_num, by norm_num, by norm_num, by norm_num⟩,
    c4_codec_round_trip_int64 4 2 11 (by norm_num) (by norm_num) (by norm_num)
      (by norm_num)⟩

theorem initSkipChecked_eq (seq : List ℕ) (num_states : ℕ) :
    ∀ m, m ≤ seq.length →
      initSkipChecked seq num_states m = some (badBound seq num_states m) := by
  intro m
  induction m with
  | zero => intro _; rfl
  | succ m ih =>
      intro hm
      have hlt : m < seq.length := by omega
      simp [initSkipChecked, badBound, ih (by omega),
        List.getElem?_eq_getElem hlt, List.getD_eq_getElem seq 0 hlt]

theorem kmerCountsLoopT_su (seq : List ℕ) (ns k : ℕ) (hk : 1 ≤ k) :
    ∀ m, (if ns ≤ seq.getD (m + k - 1) 0 then m + k else (kmerCountsLoopT seq ns k m).1)
      = badBound seq ns (k + m) := by
  cases k with
  | zero => omega
  | succ k' =>
    intro m
    induction m with
    | zero =>
        show (if ns ≤ seq.getD (0 + (k' + 1) - 1) 0 then 0 + (k' + 1)
          else badBound seq ns (k' + 1)) = badBound seq ns (k' + 1 + 0)
        have e1 : 0 + (k' + 1) - 1 = k' := by omega
        have e0 : 0 + (k' + 1) = k' + 1 := by omega
        rw [e1, e0, Nat.add_zero]
        have hbb : badBound seq ns (k' + 1)
            = if ns ≤ seq.getD k' 0 then k' + 1 else badBound seq ns k' := rfl
        by_cases h : ns ≤ seq.getD k' 0
        · rw [if_pos h, hbb, if_pos h]
        · rw [if_neg h]
    | succ m ih =>
        have hfst : (kmerCountsLoopT seq ns (k' + 1) (m + 1)).1
            = (if ns ≤ seq.getD (m + (k' + 1) - 1) 0 then m + (k' + 1)
              else (kmerCountsLoopT seq ns (k' + 1) m).1) := by
          simp only [kmerCountsLoopT]
          split <;> (split <;> rfl)
        rw [hfst, ih]
        have e2 : m + 1 + (k' + 1) - 1 = k' + 1 + m := by omega
        rw [e2]
        have e3 : k' + 1 + (m + 1) = (k' + 1 + m) + 1 := by omega
        rw [e3]
        have hbb : badBound seq ns ((k' + 1 + m) + 1)
            = if ns ≤ seq.getD (k' + 1 + m) 0 then (k' + 1 + m) + 1
              else badBound seq ns (k' + 1 + m) := rfl
        by_cases h : ns ≤ seq.getD (k' + 1 + m) 0
        · rw [if_pos h, hbb, if_pos h]; omega
        · rw [if_neg h, hbb, if_neg h]

theorem kmerIndicesLoopT_fst (seq : List ℕ) (ns k : ℕ) :
    ∀ m, (kmerIndicesLoopT seq ns k m).1 = (kmerCountsLoopT seq ns k m).1 := by
  intro m
  induction m with
  | zero => rfl
  | succ m ih =>
      simp only [kmerIndicesLoopT, kmerCountsLoopT, ih]
      split <;> (split <;> rfl)

theorem badBound_le_iff (seq : List ℕ) (ns : ℕ) :
    ∀ n i, badBound seq ns n ≤ i ↔ ∀ j, i ≤ j → j < n → seq.getD j 0 < ns := by
  intro n
  induction n with
  | zero =>
      intro i
      simp only [badBound]
      constructor
      · intro _ j h1 h2; omega
      · intro _; omega
  | succ n ih =>
      intro i
      by_cases h : ns ≤ seq.getD n 0
      · simp only [badBound, if_pos h]
        constructor
        · intro hle j h1 h2; omega
        · intro hall
          by_contra hc
          have := hall n (by omega) (by omega)
          omega
      · simp only [badBound, if_neg h]
        rw [ih i]
        constructor
        · intro hall j h1 h2
          by_cases hj : j = n
          · subst hj; omega
          · exact hall j h1 (by omega)
        · intro hall j h1 h2
          exact hall j h1 (by omega)

/-- A window starting at `i` survives the skip-until cursor exactly when all
of its `k` positions are canonical. -/
theorem badBound_le_iff_windowValid (seq : List ℕ) (ns k i : ℕ) :
    badBound seq ns (k + i) ≤ i ↔ windowValid seq ns k i := by
  rw [badBound_le_iff]
  constructor
  · intro h j hj
    exact h (i + j) (by omega) (by omega)
  · intro h j h1 h2
    have := h (j - i) (by omega)
    have e : i + (j - i) = j := by omega
    rw [e] at this
    exact this

theorem validEncodings_succ (seq : List ℕ) (ns k m : ℕ) :
    validEncodings seq ns k (m + 1)
      = validEncodings seq ns k m ++
        (if windowValid seq ns k m
          then [encodeExact ((seq.drop m).take k) (coeffsExact ns k)]
          else []) := by
  by_cases h : windowValid seq ns k m <;>
    simp [validEncodings, List.range_succ, List.filter_append, h]

theorem kmerCountsLoopT_snd (seq : List ℕ) (ns k : ℕ) (hk : 1 ≤ k) :
    ∀ m, (kmerCountsLoopT seq ns k m).2
      = fun e => (validEncodings seq ns k m).count e := by
  intro m
  induction m with
  | zero =>
      funext e
      simp [kmerCountsLoopT, validEncodings]
  | succ m ih =>
      have hsu := kmerCountsLoopT_su seq ns k hk m
      have hsnd : (kmerCountsLoopT seq ns k (m + 1)).2
          = (if m < badBound seq ns (k + m)
              then (kmerCountsLoopT seq ns k m).2
              else bump (kmerCountsLoopT seq ns k m).2
                (encodeExact ((seq.drop m).take k) (coeffsExact ns k))) := by
        simp only [kmerCountsLoopT, hsu]
        split <;> rfl
      rw [hsnd, ih, validEncodings_succ]
      by_cases hv : windowValid seq ns k m
      · have hinc : ¬ m < badBound seq ns (k + m) := by
          have := (badBound_le_iff_windowValid seq ns k m).mpr hv
          omega
        funext e
        simp only [if_neg hinc, if_pos hv, bump, List.count_append]
        by_cases he : e = encodeExact ((seq.drop m).take k) (coeffsExact ns k)
        · subst he; simp [List.count_singleton]
        · simp [List.count_singleton, he, Ne.symm he]
      · have hinc : m < badBound seq ns (k + m) := by
          by_contra hc
          exact hv ((badBound_le_iff_windowValid seq ns k m).mp (by omega))
        simp [if_pos hinc, if_neg hv]

theorem kmerIndicesLoopT_snd (seq : List ℕ) (ns k : ℕ) (hk : 1 ≤ k) :
    ∀ m, (kmerIndicesLoopT seq ns k m).2 = validEncodings seq ns k m := by
  intro m
  induction m with
  | zero => simp [kmerIndicesLoopT, validEncodings]
  | succ m ih =>
      have hsu := kmerCountsLoopT_su seq ns k hk m
      have hsnd : (kmerIndicesLoopT seq ns k (m + 1)).2
          = (if m < badBound seq ns (k + m)
              then (kmerIndicesLoopT seq ns k m).2
              else (kmerIndicesLoopT seq ns k m).2 ++
                [encodeExact ((seq.drop m).take k) (coeffsExact ns k)]) := by
        simp only [kmerIndicesLoopT, kmerIndicesLoopT_fst seq ns k m, hsu]
        split <;> rfl
      rw [hsnd, ih, validEncodings_succ]
      by_cases hv : windowValid seq ns k m
      · have hinc : ¬ m < badBound seq ns (k + m) := by
          have := (badBound_le_iff_windowValid seq ns k m).mpr hv
          omega
        simp [if_neg hinc, if_pos hv]
      · have hinc : m < badBound seq ns (k + m) := by
          by_contra hc
          exact hv ((badBound_le_iff_windowValid seq ns k m).mp (by omega))
        simp [if_pos hinc, if_neg hv]

theorem encodeExact_cons (a c : ℕ) (l cs : List ℕ) :
    encodeExact (a :: l) (c :: cs) = a * c + encodeExact l cs := by
  simp [encodeExact]

theorem encodeExact_map_range (ns : ℕ) (g : ℕ → ℕ) :
    ∀ k, encodeExact ((List.range k).map g) (coeffsExact ns k)
      = ((List.range k).map (fun j => g j * ns ^ (k - 1 - j))).sum := by
  intro k
  induction k generalizing g with
  | zero => rfl
  | succ k ih =>
      rw [coeffsExact_succ, List.range_succ_eq_map, List.map_cons,
        encodeExact_cons, List.map_map, List.map_cons, List.sum_cons]
      have e0 : k + 1 - 1 - 0 = k := by omega
      rw [e0, List.map_map]
      congr 1
      rw [ih (g ∘ Nat.succ)]
      congr 1
      apply List.map_congr_left
      intro j hj
      simp only [Function.comp, Nat.succ_eq_add_one]
      congr 2
      omega

theorem window_slice_eq (seq : List ℕ) (i k : ℕ) (h : i + k ≤ seq.length) :
    (seq.drop i).take k = (List.range k).map (fun j => seq.getD (i + j) 0) := by
  apply List.ext_getElem
  · simp [List.length_take, List.length_drop]
    omega
  · intro j h1 h2
    have hlt : i + j < seq.length := by
      simp [List.length_take, List.length_drop] at h1
      omega
    have hj : j < k := by
      simp [List.length_take, List.length_drop] at h1
      omega
    simp [List.getElem_take, List.getElem_drop, List.getElem_range,
      List.getD_eq_getElem seq 0 hlt]
    rw [List.getElem?_eq_getElem hlt]
    rfl

/-- Inside the loop, the emitted encoding is the claim's naive mixed-radix
encoding of the window. -/
theorem encodeExact_window (seq : List ℕ) (ns k i : ℕ) (h : i + k ≤ seq.length) :
    encodeExact ((seq.drop i).take k) (coeffsExact ns k)
      = naiveEncode seq ns k i := by
  rw [window_slice_eq seq i k h, encodeExact_map_range, naiveEncode]

/-- A mixed-radix number with all digits `< ns` is `< ns ^ (number of digits)`. -/
theorem encodeExact_lt (ns : ℕ) (hns : 0 < ns) :
    ∀ ds : List ℕ, (∀ d ∈ ds, d < ns) →
      encodeExact ds (coeffsExact ns ds.length) < ns ^ ds.length := by
  intro ds
  induction ds with
  | nil => intro _; simp [encodeExact, coeffsExact]
  | cons d t ih =>
      intro hd
      have hdlt : d < ns := hd d (List.mem_cons_self d t)
      have hrest := ih (fun x hx => hd x (List.mem_cons_of_mem d hx))
      rw [List.length_cons, coeffsExact_succ, encodeExact_cons]
      have hP : 0 < ns ^ t.length := Nat.pos_pow_of_pos _ hns
      have h1 : d * ns ^ t.length ≤ (ns - 1) * ns ^ t.length :=
        Nat.mul_le_mul_right _ (by omega)
      have h2 : (ns - 1) * ns ^ t.length = ns * ns ^ t.length - ns ^ t.length := by
        rw [Nat.sub_mul, one_mul]
      rw [h2] at h1
      have h3 : ns ^ (t.length + 1) = ns * ns ^ t.length := by ring
      have h4 : ns ^ t.length ≤ ns * ns ^ t.length :=
        Nat.le_mul_of_pos_left _ hns
      rw [h3]
      omega

/-- Inside the kernels, an emitted (valid, in-bounds) window has an
int64-exact encoding below `num_states ^ k`, equal to the cast of the exact
one. -/
theorem window_encode_int64 (seq : List ℕ) (ns k i : ℕ)
    (hns : 0 < ns) (hcap : ns ^ k ≤ 2 ^ 63)
    (hin : i + k ≤ seq.length) (hvalid : windowValid seq ns k i) :
    encodeExact ((seq.drop i).take k) (coeffsExact ns k) < ns ^ k ∧
    coord_to_index (((seq.drop i).take k).map (fun x : ℕ => (x : ℤ)))
        (coord_conversion_coeffs ns k)
      = ((encodeExact ((seq.drop i).take k) (coeffsExact ns k) : ℕ) : ℤ) := by
  have hwl : ((seq.drop i).take k).length = k := by
    simp [List.length_take, List.length_drop]
    omega
  have hd : ∀ d ∈ (seq.drop i).take k, d < ns := by
    intro d hdm
    rw [window_slice_eq seq i k hin] at hdm
    simp only [List.mem_map, List.mem_range] at hdm
    obtain ⟨j, hj, rfl⟩ := hdm
    exact hvalid j hj
  have hlt : encodeExact ((seq.drop i).take k) (coeffsExact ns k) < ns ^ k := by
    have := encodeExact_lt ns hns ((seq.drop i).take k) hd
    rwa [hwl] at this
  refine ⟨hlt, ?_⟩
  rw [coord_conversion_coeffs_eq_exact ns k hns hcap,
    coord_to_index_cast _ _ (lt_of_lt_of_le hlt hcap)]

theorem kmerCountsLoop_eq (seq : List ℕ) (ns k : ℕ)
    (hk : 1 ≤ k) (hlen : k ≤ seq.length) (hns : 0 < ns)
    (hcap : ns ^ k < 2 ^ 63) :
    ∀ m, m + k ≤ seq.length + 1 →
      kmerCountsLoop seq ns k ((ns ^ k : ℕ) : ℤ) m
        = some (kmerCountsLoopT seq ns k m) := by
  intro m
  induction m with
  | zero =>
      intro _
      simp [kmerCountsLoop, kmerCountsLoopT, initSkipChecked_eq seq ns k hlen]
  | succ m ih =>
      intro hm
      have hr : m + k - 1 < seq.length := by omega
      simp only [kmerCountsLoop, kmerCountsLoopT, ih (by omega),
        List.getElem?_eq_getElem hr, List.getD_eq_getElem seq 0 hr,
        Option.bind_eq_bind, Option.some_bind]
      by_cases hcond : m < (if ns ≤ seq[m + k - 1] then m + k
          else (kmerCountsLoopT seq ns k m).1)
      · rw [if_pos hcond, if_pos hcond]
        rfl
      · rw [if_neg hcond, if_neg hcond]
        have hsu : (if ns ≤ seq[m + k - 1] then m + k
            else (kmerCountsLoopT seq ns k m).1) = badBound seq ns (k + m) := by
          have h := kmerCountsLoopT_su seq ns k hk m
          rwa [List.getD_eq_getElem seq 0 hr] at h
        have hvalid : windowValid seq ns k m := by
          apply (badBound_le_iff_windowValid seq ns k m).mp
          rw [← hsu]
          omega
        obtain ⟨hlt, hidx⟩ := window_encode_int64 seq ns k m hns
          (le_of_lt hcap) (by omega) hvalid
        rw [hidx]
        rw [if_pos ⟨by omega, by omega⟩]
        rw [Int.emod_eq_of_lt (by omega) (by omega), Int.toNat_natCast]
        rfl

theorem kmerIndicesLoop_eq (seq : List ℕ) (ns k : ℕ)
    (hk : 1 ≤ k) (hlen : k ≤ seq.length) (hns : 0 < ns)
    (hcap : ns ^ k < 2 ^ 63) :
    ∀ m, m + k ≤ seq.length + 1 →
      kmerIndicesLoop seq ns k m
        = some ((kmerIndicesLoopT seq ns k m).1,
            (kmerIndicesLoopT seq ns k m).2.map (fun x : ℕ => (x : ℤ))) := by
  intro m
  induction m with
  | zero =>
      intro _
      simp [kmerIndicesLoop, kmerIndicesLoopT, initSkipChecked_eq seq ns k hlen]
  | succ m ih =>
      intro hm
      have hr : m + k - 1 < seq.length := by omega
      simp only [kmerIndicesLoop, kmerIndicesLoopT, ih (by omega),
        List.getElem?_eq_getElem hr, List.getD_eq_getElem seq 0 hr,
        Option.bind_eq_bind, Option.some_bind]
      by_cases hcond : m < (if ns ≤ seq[m + k - 1] then m + k
          else (kmerIndicesLoopT seq ns k m).1)
      · rw [if_pos hcond, if_pos hcond]
        rfl
      · rw [if_neg hcond, if_neg hcond]
        have hsu : (if ns ≤ seq[m + k - 1] then m + k
            else (kmerIndicesLoopT seq ns k m).1) = badBound seq ns (k + m) := by
          have h := kmerCountsLoopT_su seq ns k hk m
          rw [kmerIndicesLoopT_fst seq ns k m]
          rwa [List.getD_eq_getElem seq 0 hr] at h
        have hvalid : windowValid seq ns k m := by
          apply (badBound_le_iff_windowValid seq ns k m).mp
          rw [← hsu]
          omega
        obtain ⟨hlt, hidx⟩ := window_encode_int64 seq ns k m hns
          (le_of_lt hcap) (by omega) hvalid
        rw [hidx]
        simp [List.map_append]

theorem kmer_counts_eq (seq : List ℕ) (ns k : ℕ) (hk : 1 ≤ k)
    (hlen : k ≤ seq.length) (hns : 0 < ns) (hcap : ns ^ k < 2 ^ 63) :
    kmer_counts seq ns k
      = some (fun e => (validEncodings seq ns k (seq.length + 1 - k)).count e) := by
  have hsize : i64 ((ns : ℤ) ^ k) = ((ns ^ k : ℕ) : ℤ) := by
    have hcast : ((ns : ℤ)) ^ k = ((ns ^ k : ℕ) : ℤ) := by push_cast; ring
    rw [hcast]
    apply i64_eq_of_lt (by positivity)
    have h2 : ((2 : ℤ)) ^ 63 = ((2 ^ 63 : ℕ) : ℤ) := by norm_num
    rw [h2]
    exact_mod_cast hcap
  rw [kmer_counts, hsize, if_neg (by omega),
    kmerCountsLoop_eq seq ns k hk hlen hns hcap _ (by omega)]
  simp only [Option.map_some']
  congr 1
  exact kmerCountsLoopT_snd seq ns k hk _

theorem kmer_indices_eq (seq : List ℕ) (ns k : ℕ) (hk : 1 ≤ k)
    (hlen : k ≤ seq.length) (hns : 0 < ns) (hcap : ns ^ k < 2 ^ 63) :
    kmer_indices seq (seq.length + 1 - k) ns k
      = some ((validEncodings seq ns k (seq.length + 1 - k)).map
          (fun x : ℕ => (x : ℤ))) := by
  rw [kmer_indices, kmerIndicesLoop_eq seq ns k hk hlen hns hcap _ (by omega)]
  simp only [Option.map_some']
  congr 1
  exact congrArg _ (kmerIndicesLoopT_snd seq ns k hk _)

theorem naiveCount_eq_count (seq : List ℕ) (ns k e : ℕ)
    (_hk : 1 ≤ k) (hlen : k ≤ seq.length) :
    naiveCount seq ns k e
      = (validEncodings seq ns k (seq.length + 1 - k)).count e := by
  have hmap : validEncodings seq ns k (seq.length + 1 - k)
      = ((List.range (seq.length + 1 - k)).filter
          (fun i => decide (windowValid seq ns k i))).map
          (fun i => naiveEncode seq ns k i) := by
    simp only [validEncodings]
    apply List.map_congr_left
    intro i hi
    have hi2 : i < seq.length + 1 - k :=
      List.mem_range.mp (List.mem_of_mem_filter hi)
    exact encodeExact_window seq ns k i (by omega)
  rw [hmap, naiveCount]
  have hc : (((List.range (seq.length + 1 - k)).filter
        (fun i => decide (windowValid seq ns k i))).map
        (fun i => naiveEncode seq ns k i)).count e
      = ((List.range (seq.length + 1 - k)).filter
          (fun i => decide (windowValid seq ns k i))).countP
          (fun i => naiveEncode seq ns k i == e) := by
    show List.countP _ _ = _
    rw [List.countP_map]
    rfl
  rw [hc, List.countP_filter, List.countP_eq_length_filter]
  congr 1
  apply List.filter_congr
  intro i _
  cases h1 : decide (windowValid seq ns k i) <;>
    cases h2 : naiveEncode seq ns k i == e <;> simp [h1, h2]

theorem sum_count_eq_length (N : ℕ) :
    ∀ l : List ℕ, (∀ x ∈ l, x < N) →
      ((Finset.range N).sum fun e => l.count e) = l.length := by
  intro l
  induction l with
  | nil => intro _; simp
  | cons a t ih =>
      intro h
      have ha : a < N := h a (List.mem_cons_self a t)
      have ht := ih (fun x hx => h x (List.mem_cons_of_mem a hx))
      simp only [List.count_cons, List.length_cons]
      rw [Finset.sum_add_distrib, ht]
      congr 1
      simp only [beq_iff_eq]
      rw [Finset.sum_ite_eq (Finset.range N) a (fun _ => 1)]
      simp [ha]

/-- C2 counterexample: the claim quantifies over every `num_states > 0` and
`k > 0`, but at `num_states = 4`, `k = 32` the jitted int64 `4 ** 32` wraps
to `0`: the dense array is allocated empty and the very first valid window's
count write lands out of bounds, so `kmer_counts` fails on a sequence of 32
canonical symbols — while the naive reference counts one window — refuting
the claimed three-way agreement on its stated domain. -/
theorem c2_int64_wrap_counterexample :
    (0 < 32 ∧ 32 ≤ (List.replicate 32 0 : List ℕ).length ∧ 0 < 4 ∧
      0 < 4 ^ 32) ∧
    kmer_counts (List.replicate 32 0) 4 32 = none ∧
    naiveCount (List.replicate 32 0) 4 32 0 = 1 :=
  ⟨⟨by norm_num, by norm_num, by norm_num, by norm_num⟩, rfl, by decide⟩

/-- C2 amended: for a sequence of length at least `k > 0`, `num_states > 0`
and `num_states ^ k` within the int64-exact range (`< 2 ^ 63` — outside it
the jitted kernels wrap, see the counterexample), the two counting modes
agree with each other and with the naive re-scan reference: for every cell
`e < num_states ^ k`, the dense count of `kmer_counts` at `e` equals the
number of occurrences of (the int64 value of) `e` in the output of
`kmer_indices` (with the caller-sized result array), and both equal the
naive count of valid windows encoding to `e` (windows containing a
non-canonical position excluded). -/
theorem c2_counting_modes_agree (seq : List ℕ) (num_states k e : ℕ)
    (hk : 0 < k) (hlen : k ≤ seq.length) (hns : 0 < num_states)
    (hcap : num_states ^ k < 2 ^ 63) (_he : e < num_states ^ k) :
    ∃ idxs counts,
      kmer_indices seq (seq.length + 1 - k) num_states k = some idxs ∧
      kmer_counts seq num_states k = some counts ∧
      counts e = idxs.count ((e : ℕ) : ℤ) ∧
      counts e = naiveCount seq num_states k e :=
  ⟨(validEncodings seq num_states k (seq.length + 1 - k)).map
      (fun x : ℕ => (x : ℤ)),
    fun x => (validEncodings seq num_states k (seq.length + 1 - k)).count x,
    kmer_indices_eq seq num_states k hk hlen hns hcap,
    kmer_counts_eq seq num_states k hk hlen hns hcap,
    (List.count_map_of_injective _ _ Nat.cast_injective e).symm,
    (naiveCount_eq_count seq num_states k e hk hlen).symm⟩

/-- Witness for C2 (amended) at `seq = [0,1,0,5]`, `num_states = 2`,
`k = 2`, `e = 1` (the last window `(0,5)` contains the non-canonical
symbol `5`). -/
theorem c2_counting_modes_agree_witness :
    (0 < 2 ∧ 2 ≤ ([0, 1, 0, 5] : List ℕ).length ∧ 0 < 2 ∧
      2 ^ 2 < 2 ^ 63 ∧ 1 < 2 ^ 2) ∧
    (∃ idxs counts,
      kmer_indices [0, 1, 0, 5] (([0, 1, 0, 5] : List ℕ).length + 1 - 2) 2 2
        = some idxs ∧
      kmer_counts [0, 1, 0, 5] 2 2 = some counts ∧
      counts 1 = idxs.count ((1 : ℕ) : ℤ) ∧
      counts 1 = naiveCount [0, 1, 0, 5] 2 2 1) :=
  ⟨⟨by decide, by decide, by decide, by norm_num, by decide⟩,
    c2_counting_modes_agree [0, 1, 0, 5] 2 2 1 (by decide) (by decide)
      (by decide) (by norm_num) (by decide)⟩

/-- C3 counterexample: at `num_states = 4`, `k = 32` (a fully canonical
sequence of 32 symbols, so the claim demands counts summing to
`32 - 32 + 1 = 1`), the jitted int64 `4 ** 32` wraps to `0`: the dense
array is empty and the first count write lands out of bounds, so
`kmer_counts` produces no counts at all. -/
theorem c3_int64_wrap_counterexample :
    ((∀ x ∈ (List.replicate 32 0 : List ℕ), x < 4) ∧ 0 < 32 ∧
      32 ≤ (List.replicate 32 0 : List ℕ).length) ∧
    kmer_counts (List.replicate 32 0) 4 32 = none ∧
    (List.replicate 32 0 : List ℕ).length - 32 + 1 = 1 :=
  ⟨⟨by decide, by norm_num, by norm_num⟩, rfl, by norm_num⟩

/-- C3 amended: on a fully canonical sequence with `0 < k ≤ len(seq)` and
`num_states ^ k` within the int64-exact range (`< 2 ^ 63` — outside it the
jitted size computation wraps, see the counterexample), the dense counts of
`kmer_counts` sum (over all `num_states ^ k` cells) to `len(seq) - k + 1`. -/
theorem c3_counts_sum_all_canonical (seq : List ℕ) (num_states k : ℕ)
    (hcanon : ∀ x ∈ seq, x < num_states) (hk : 0 < k) (hlen : k ≤ seq.length)
    (hcap : num_states ^ k < 2 ^ 63) :
    ∃ counts, kmer_counts seq num_states k = some counts ∧
      (Finset.range (num_states ^ k)).sum counts = seq.length - k + 1 := by
  have h0 : 0 < seq.length := by omega
  have hns : 0 < num_states := by
    have := hcanon seq[0] (List.getElem_mem h0)
    omega
  refine ⟨_, kmer_counts_eq seq num_states k hk hlen hns hcap, ?_⟩
  have hall : ∀ x ∈ validEncodings seq num_states k (seq.length + 1 - k),
      x < num_states ^ k := by
    intro x hx
    simp only [validEncodings, List.mem_map] at hx
    obtain ⟨i, hi, rfl⟩ := hx
    have hi2 : i < seq.length + 1 - k :=
      List.mem_range.mp (List.mem_of_mem_filter hi)
    have hwl : ((seq.drop i).take k).length = k := by
      simp [List.length_take, List.length_drop]
      omega
    have hd : ∀ d ∈ (seq.drop i).take k, d < num_states := by
      intro d hdm
      exact hcanon d (List.mem_of_mem_drop (List.mem_of_mem_take hdm))
    have := encodeExact_lt num_states hns ((seq.drop i).take k) hd
    rw [hwl] at this
    exact this
  rw [sum_count_eq_length (num_states ^ k) _ hall]
  have hfilter : (List.range (seq.length + 1 - k)).filter
      (fun i => decide (windowValid seq num_states k i))
      = List.range (seq.length + 1 - k) := by
    apply List.filter_eq_self.mpr
    intro i hi
    have hi2 : i < seq.length + 1 - k := List.mem_range.mp hi
    simp only [decide_eq_true_eq]
    intro j hj
    have hlt : i + j < seq.length := by omega
    rw [List.getD_eq_getElem seq 0 hlt]
    exact hcanon _ (seq.getElem_mem hlt)
  simp only [validEncodings, hfilter, List.length_map, List.length_range]
  omega

/-- Witness for C3 (amended) at `seq = [0, 1, 0]`, `num_states = 2`,
`k = 2`: the counts sum to `3 - 2 + 1 = 2`. -/
theorem c3_counts_sum_all_canonical_witness :
    ((∀ x ∈ ([0, 1, 0] : List ℕ), x < 2) ∧ 0 < 2 ∧
      2 ≤ ([0, 1, 0] : List ℕ).length ∧ 2 ^ 2 < 2 ^ 63) ∧
    (∃ counts, kmer_counts [0, 1, 0] 2 2 = some counts ∧
      (Finset.range (2 ^ 2)).sum counts = ([0, 1, 0] : List ℕ).length - 2 + 1) :=
  ⟨⟨by decide, by decide, by decide, by norm_num⟩,
    c3_counts_sum_all_canonical [0, 1, 0] 2 2 (by decide) (by decide)
      (by decide) (by norm_num)⟩

/-- C8: contrary to the claim, a sequence shorter than `k` is NOT handled
gracefully.  The initialisation scan `for i in range(k): if seq[i] >= ...`
reads `seq[0 .. k-1]` unconditionally, which is out of the sequence's bounds
whenever `len(seq) < k` (an `IndexError` under plain numpy, an out-of-bounds
memory read under the numba jit); and `_seq_to_all_kmers` allocates a
negative-size result (`ValueError`) whenever `len(seq) + 1 < k`.  Evaluations
at the failing inputs: empty sequence with `k = 1`, a length-1 sequence with
`k = 2`, and the empty sequence through `_seq_to_all_kmers` with `k = 2`. -/
theorem c8_short_sequence_reads_out_of_bounds :
    kmer_counts [] 4 1 = none ∧
    kmer_counts [0] 4 2 = none ∧
    _seq_to_all_kmers [] 4 2 = none :=
  ⟨rfl, rfl, rfl⟩

theorem div_data_getD_vec (xs : List ℚ) (w : vector) (i : ℕ)
    (hx : i < xs.length) (hy : i < w.data.length) :
    (div_data xs (Divisor.vec w)).getD i 0
      = nan_to_num (float_div (xs.getD i 0) (w.data.getD i 0)) := by
  have hlen : i < (List.zipWith (fun a b => nan_to_num (float_div a b)) xs w.data).length := by
    rw [List.length_zipWith]
    exact lt_min hx hy
  rw [div_data, List.getD_eq_getElem _ _ hlen, List.getElem_zipWith,
    List.getD_eq_getElem _ _ hx, List.getD_eq_getElem _ _ hy]

theorem div_data_getD_scalar (xs : List ℚ) (c : ℚ) (i : ℕ) (hx : i < xs.length) :
    (div_data xs (Divisor.scalar c)).getD i 0
      = nan_to_num (float_div (xs.getD i 0) c) := by
  have hlen : i < (xs.map (fun a => nan_to_num (float_div a c))).length := by
    rw [List.length_map]
    exact hx
  rw [div_data, List.getD_eq_getElem _ _ hlen, List.getElem_map,
    List.getD_eq_getElem _ _ hx]

theorem nan_to_num_float_div_zero (a : ℚ) :
    nan_to_num (float_div a 0)
      = (if a = 0 then 0 else if 0 < a then MAX_FLOAT else -MAX_FLOAT) := by
  rw [float_div, if_pos rfl]
  by_cases h : a = 0
  · rw [if_pos h, if_pos h]
    rfl
  · rw [if_neg h, if_neg h]
    by_cases h2 : 0 < a
    · rw [if_pos h2, if_pos h2]
      rfl
    · rw [if_neg h2, if_neg h2]
      rfl

/-- C5 counterexample: dividing the nonzero cell value `5` by zero yields the
largest finite float, not zero — `nan_to_num(…, nan=0.0)` replaces only NaN
(`0/0`) by `0.0`; the `inf` produced by `5/0` becomes the dtype maximum. -/
theorem c5_div_by_zero_counterexample :
    (vector.truediv
        { data := [5], vector_length := 1, dtype := Dtype.int,
          source := none, name := none }
        (Divisor.scalar 0)).data = [MAX_FLOAT] ∧
    MAX_FLOAT ≠ 0 := by
  constructor
  · show div_data [5] (Divisor.scalar 0) = [MAX_FLOAT]
    rw [div_data, List.map_cons, List.map_nil, nan_to_num_float_div_zero]
    norm_num
  · rw [MAX_FLOAT]
    norm_num

/-- C5 amended: a cell whose divisor cell is zero holds zero when the
numerator cell is also zero, and otherwise the largest finite float carrying
the numerator's sign; no NaN or infinity appears in the result and no error
is raised.  Stated for a vector divisor (at a position inside both data
arrays) and for the scalar divisor `0`. -/
theorem c5_div_by_zero_amended (v w : vector) (i : ℕ)
    (hi : i < v.data.length) (hiw : i < w.data.length)
    (hz : w.data.getD i 0 = 0) :
    (v.truediv (Divisor.vec w)).data.getD i 0
      = (if v.data.getD i 0 = 0 then 0
        else if 0 < v.data.getD i 0 then MAX_FLOAT else -MAX_FLOAT) ∧
    (v.truediv (Divisor.scalar 0)).data.getD i 0
      = (if v.data.getD i 0 = 0 then 0
        else if 0 < v.data.getD i 0 then MAX_FLOAT else -MAX_FLOAT) := by
  constructor
  · show (div_data v.data (Divisor.vec w)).getD i 0 = _
    rw [div_data_getD_vec v.data w i hi hiw, hz, nan_to_num_float_div_zero]
  · show (div_data v.data (Divisor.scalar 0)).getD i 0 = _
    rw [div_data_getD_scalar v.data 0 i hi, nan_to_num_float_div_zero]

/-- Witness for C5 (amended) at `v = [5]`, `w = [0]`, cell `0`. -/
theorem c5_div_by_zero_amended_witness :
    (0 < (vector.mk [5] 1 Dtype.int none none).data.length ∧
      0 < (vector.mk [0] 1 Dtype.int none none).data.length ∧
      (vector.mk [0] 1 Dtype.int none none).data.getD 0 0 = 0) ∧
    ((vector.mk [5] 1 Dtype.int none none).truediv
        (Divisor.vec (vector.mk [0] 1 Dtype.int none none))).data.getD 0 0
      = (if (vector.mk [5] 1 Dtype.int none none).data.getD 0 0 = 0 then 0
        else if 0 < (vector.mk [5] 1 Dtype.int none none).data.getD 0 0
          then MAX_FLOAT else -MAX_FLOAT) ∧
    ((vector.mk [5] 1 Dtype.int none none).truediv
        (Divisor.scalar 0)).data.getD 0 0
      = (if (vector.mk [5] 1 Dtype.int none none).data.getD 0 0 = 0 then 0
        else if 0 < (vector.mk [5] 1 Dtype.int none none).data.getD 0 0
          then MAX_FLOAT else -MAX_FLOAT) :=
  ⟨⟨by norm_num, by norm_num, by norm_num⟩,
    c5_div_by_zero_amended (vector.mk [5] 1 Dtype.int none none)
      (vector.mk [0] 1 Dtype.int none none) 0 (by norm_num) (by norm_num)
      (by norm_num)⟩

/-- C10: the quotient is a new vector with dtype `float` (even for two
integer-dtype operands — the dtype is hard-coded) and the same
`vector_length` as `v`; operands are not mutated (`/` allocates a fresh
array; `nan_to_num(..., copy=False)` rewrites only that fresh array, which
the pure embedding reflects by construction).  The in-place variant likewise
switches `dtype` to `float` and keeps `vector_length`. -/
theorem c10_truediv_new_float_vector (v : vector) (other : Divisor) :
    (v.truediv other).dtype = Dtype.float ∧
    (v.truediv other).vector_length = v.vector_length ∧
    (v.itruediv other).dtype = Dtype.float ∧
    (v.itruediv other).vector_length = v.vector_length :=
  ⟨rfl, rfl, rfl, rfl⟩

/-- C6: contrary to the claim, serialisation never succeeds.  `self.data` is
always a numpy `ndarray` after construction (`_make_data` densifies every
accepted input), and `to_rich_dict` calls `.items()` on it — an `ndarray` has
no such attribute, so every call raises `AttributeError` before any dict is
produced, and no `vector` can round trip. -/
theorem c6_to_rich_dict_always_fails (v : vector) :
    vector.to_rich_dict v = none := rfl

theorem entropy_int (v : vector) (h : v.dtype = Dtype.int) :
    vector.entropy v = |(-(intEntropyTerms v).sum)| := by
  rw [vector.entropy, h, if_neg (by simp), List.map_map]
  rfl

theorem list_sum_nonpos : ∀ l : List ℝ, (∀ x ∈ l, x ≤ 0) → l.sum ≤ 0 := by
  intro l
  induction l with
  | nil => intro _; simp
  | cons a t ih =>
      intro h
      rw [List.sum_cons]
      have h1 := h a (List.mem_cons_self a t)
      have h2 := ih (fun x hx => h x (List.mem_cons_of_mem a hx))
      linarith

theorem intEntropyTerms_nonpos (v : vector) : ∀ t ∈ intEntropyTerms v, t ≤ 0 := by
  intro t ht
  rw [intEntropyTerms, List.mem_map] at ht
  obtain ⟨p, hp, rfl⟩ := ht
  have hp0 : 0 < p := by
    have := (List.mem_filter.mp hp).2
    simpa using this
  have hS : p ≤ (v.data.filter (fun x => decide (0 < x))).sum :=
    List.single_le_sum (fun x hx => le_of_lt (by
      have := (List.mem_filter.mp hx).2
      simpa using this)) p hp
  have hSpos : 0 < (v.data.filter (fun x => decide (0 < x))).sum :=
    lt_of_lt_of_le hp0 hS
  have hq0 : (0 : ℚ) < p / (v.data.filter (fun x => decide (0 < x))).sum :=
    div_pos hp0 hSpos
  have hq1 : p / (v.data.filter (fun x => decide (0 < x))).sum ≤ 1 := by
    rw [div_le_one hSpos]
    exact hS
  apply mul_nonpos_of_nonneg_of_nonpos
  · exact_mod_cast le_of_lt hq0
  · apply Real.logb_nonpos (by norm_num)
    · exact_mod_cast le_of_lt hq0
    · exact_mod_cast hq1

/-- C7 counterexample: for the float-dtype vector `[2.0]` the code takes the
positive cells as they are (no normalisation), giving entropy
`|-(2 * log2 2)| = 2`, while the claimed formula (normalise by the sum) gives
`0` — and the claim also asserts that any single-non-zero-cell vector has
entropy `0`. -/
theorem c7_entropy_counterexample :
    vector.entropy (vector.mk [2] 1 Dtype.float none none)
      ≠ claimedEntropy (vector.mk [2] 1 Dtype.float none none) ∧
    vector.entropy (vector.mk [2] 1 Dtype.float none none) = 2 ∧
    claimedEntropy (vector.mk [2] 1 Dtype.float none none) = 0 := by
  have hf : ([2] : List ℚ).filter (fun x => decide (0 < x)) = [2] := by decide
  have hg : ([2] : List ℚ).filter (fun x => decide (x ≠ 0)) = [2] := by decide
  have h2 : vector.entropy (vector.mk [2] 1 Dtype.float none none) = 2 := by
    rw [vector.entropy]
    simp [hf]
  have h0 : claimedEntropy (vector.mk [2] 1 Dtype.float none none) = 0 := by
    rw [claimedEntropy, vector.sum]
    simp [hg]
  refine ⟨?_, h2, h0⟩
  rw [h2, h0]
  norm_num

/-- C7 amended: for an integer-dtype Vector the entropy is exactly
`-(Σ over the positive cells p of (p/S) * log2 (p/S))` with `S` the sum of
the positive cells (the absolute value is redundant there since that sum of
terms is nonpositive); it is always non-negative; it is `0` when no cell is
positive (in particular for an all-zero vector); a single positive cell gives
`0`; and `n` equal positive cells give `log2 n`.  (A float-dtype vector is
used without normalisation, so for it the formula only holds when the
positive cells already sum to 1 — see the counterexample.) -/
theorem c7_entropy_int_normalised (v : vector) (h : v.dtype = Dtype.int) :
    vector.entropy v = -((intEntropyTerms v).sum) ∧
    0 ≤ vector.entropy v ∧
    (v.data.filter (fun x => decide (0 < x)) = [] → vector.entropy v = 0) ∧
    (∀ p : ℚ, v.data.filter (fun x => decide (0 < x)) = [p] →
      vector.entropy v = 0) ∧
    (∀ (n : ℕ) (c : ℚ), 0 < c →
      v.data.filter (fun x => decide (0 < x)) = List.replicate n c →
      vector.entropy v = Real.logb 2 (n : ℝ)) := by
  have hmain : vector.entropy v = -((intEntropyTerms v).sum) := by
    rw [entropy_int v h, abs_neg,
      abs_of_nonpos (list_sum_nonpos _ (intEntropyTerms_nonpos v))]
  refine ⟨hmain, ?_, ?_, ?_, ?_⟩
  · rw [entropy_int v h]
    exact abs_nonneg _
  · intro hnil
    rw [hmain, intEntropyTerms, hnil]
    simp
  · intro p hp
    have hp0 : 0 < p := by
      have hmem : p ∈ v.data.filter (fun x => decide (0 < x)) := by
        rw [hp]
        exact List.mem_singleton_self p
      have := (List.mem_filter.mp hmem).2
      simpa using this
    rw [hmain, intEntropyTerms, hp]
    simp only [List.map_cons, List.map_nil, List.sum_cons, List.sum_nil,
      add_zero]
    rw [div_self (ne_of_gt hp0)]
    norm_num [Real.logb_one]
  · intro n c hc hrep
    rw [hmain, intEntropyTerms, hrep]
    cases n with
    | zero =>
        simp [Real.logb_zero]
    | succ n =>
        have hS : (List.replicate (n + 1) c).sum = ((n + 1 : ℕ) : ℚ) * c := by
          rw [List.sum_replicate, nsmul_eq_mul]
        rw [hS, List.map_replicate, List.sum_replicate]
        have hq : c / (((n + 1 : ℕ) : ℚ) * c) = (((n + 1 : ℕ) : ℚ))⁻¹ := by
          rw [div_mul_eq_div_div_swap, div_self (ne_of_gt hc), one_div]
        rw [hq]
        have hcast : (((((n + 1 : ℕ) : ℚ))⁻¹ : ℚ) : ℝ) = ((n + 1 : ℕ) : ℝ)⁻¹ := by
          push_cast
          ring
        rw [hcast, Real.logb_inv, nsmul_eq_mul]
        have hne : ((n + 1 : ℕ) : ℝ) ≠ 0 := by positivity
        field_simp

/-- Witness for C7 (amended) at the uniform two-cell integer vector
`[1, 1]`, whose entropy is `log2 2 = 1`. -/
theorem c7_entropy_int_normalised_witness :
    ((vector.mk [1, 1] 2 Dtype.int none none).dtype = Dtype.int) ∧
    (vector.entropy (vector.mk [1, 1] 2 Dtype.int none none)
        = -((intEntropyTerms (vector.mk [1, 1] 2 Dtype.int none none)).sum) ∧
      0 ≤ vector.entropy (vector.mk [1, 1] 2 Dtype.int none none) ∧
      ((vector.mk [1, 1] 2 Dtype.int none none).data.filter
          (fun x => decide (0 < x)) = [] →
        vector.entropy (vector.mk [1, 1] 2 Dtype.int none none) = 0) ∧
      (∀ p : ℚ, (vector.mk [1, 1] 2 Dtype.int none none).data.filter
          (fun x => decide (0 < x)) = [p] →
        vector.entropy (vector.mk [1, 1] 2 Dtype.int none none) = 0) ∧
      (∀ (n : ℕ) (c : ℚ), 0 < c →
        (vector.mk [1, 1] 2 Dtype.int none none).data.filter
          (fun x => decide (0 < x)) = List.replicate n c →
        vector.entropy (vector.mk [1, 1] 2 Dtype.int none none)
          = Real.logb 2 (n : ℝ))) :=
  ⟨rfl, c7_entropy_int_normalised (vector.mk [1, 1] 2 Dtype.int none none) rfl⟩

/-- C1: contrary to the claim — and to the repository's own
`test_seqrecord_compare`, which sorts three equal-name, equal-length records
and expects ascending `delta_jsd` — the `SeqRecord` ordering ignores
`delta_jsd`.  In `attrs` a field's `order` flag mirrors its `eq` flag when
not given, and `delta_jsd` is declared `eq=False`, so the generated `__lt__`
compares `(name, length)` only.  At the failing input, two records both
named `"null"` with length `5` and `delta_jsd` `1.0` < `34.0`, neither
compares less than the other, refuting `r1 < r2 ↔ r1.delta_jsd <
r2.delta_jsd`; a (stable) sort leaves such records in insertion order
instead of ascending `delta_jsd`. -/
theorem c1_order_ignores_delta_jsd :
    ¬ SeqRecord.lt (recNull 1) (recNull 34) ∧
    ¬ SeqRecord.lt (recNull 34) (recNull 1) ∧
    (recNull 1).delta_jsd < (recNull 34).delta_jsd := by
  refine ⟨?_, ?_, by norm_num [recNull]⟩ <;>
    · intro hlt
      rcases hlt with h | ⟨_, h⟩
      · simp only [recNull] at h
        exact lt_irrefl _ h
      · simp only [recNull] at h
        exact absurd h (by norm_num)

/-- What the ordering actually is: `lt` compares the `(name, length)` tuple
lexicographically and is completely independent of `delta_jsd` (and of
`kcounts`). -/
theorem seqrecord_lt_iff (kc1 kc2 : vector) (n1 n2 : String) (l1 l2 : ℤ)
    (d1 d2 : ℚ) :
    SeqRecord.lt
        { kcounts := kc1, name := n1, length := l1, delta_jsd := d1 }
        { kcounts := kc2, name := n2, length := l2, delta_jsd := d2 }
      ↔ (n1 < n2 ∨ (n1 = n2 ∧ l1 < l2)) :=
  Iff.rfl

/-- C9: contrary to the claim — and to the repository's own
`test_seqrecord_invalid_input`, which expects a `ValueError` when `k`
exceeds the sequence length — construction validates only `length > 0`
(besides the `instance_of` type checks).  A record whose `kcounts` has
`vector_length = 16 = 4 ^ 2` (implied `k = 2`) together with `length = 1`
constructs successfully: no length-vs-k validation exists.  The
`length > 0` half does hold: `length = 0` is rejected by `_gt_zero`. -/
theorem c9_no_length_vs_k_validation :
    SeqRecord.make kc16 "a" 1
      = Except.ok
          { kcounts := kc16, name := "a", length := 1, delta_jsd := 0 } ∧
    SeqRecord.make kc16 "a" 0 = Except.error "must be > 0, not 0" := by
  constructor
  · rfl
  · rfl

end Divergent
